import Mathlib

/-!
# Verification of the liturgy cross-calendar reconciliation engine

Shallow embedding of the reconciliation logic of the liturgy frontend:

* `isFeria` — the observance classifier from `src/utils/liturgical.ts`
  (regular-expression tests are embedded as prefix / substring tests over
  the trimmed, case-folded character list of the description).
* `isNovenaWorthy`, `isSunday` — the worthiness filter from
  `src/views/NovenaView.vue`.
* `addFeastToComparison`, `generateFeastComparisons` (grouping phase),
  `findFeastInOtherCalendars`, `getFeastStatus`, `reconcile` — the
  cross-calendar comparison engine from the comparison ("nerd") view.

JavaScript objects / `Map`s keyed by strings are embedded as association
lists with first-key-wins lookup and replace-or-append update, which
matches JS semantics because JS keys are unique.  JS numbers (search
scores) are embedded as rationals; `undefined` becomes `none`.
-/

namespace Liturgy

/-! ## Character-list string helpers (JS `trim`, `toLowerCase`, regexes) -/

/-- JS `String.prototype.toLowerCase` on the character list (ASCII folding,
which is what the `/i` regex flag needs for the patterns that occur). -/
def toLowerList (l : List Char) : List Char := l.map Char.toLower

/-- JS `String.prototype.trim`: drop whitespace from both ends. -/
def trimList (l : List Char) : List Char :=
  (((l.dropWhile Char.isWhitespace).reverse).dropWhile Char.isWhitespace).reverse

/-- The trimmed, lower-cased character list of a description: the value all
case-insensitive regex tests of `isFeria` effectively run on. -/
def normBody (s : String) : List Char := toLowerList (trimList s.data)

/-- Does `pat` occur as a contiguous substring of `t` (an unanchored regex
literal match)? -/
def hasSubstr : List Char → List Char → Bool
  | t, pat =>
    pat.isPrefixOf t ||
      match t with
      | [] => false
      | _ :: rest => hasSubstr rest pat

/-- After `/^Day /` has matched: one or more digits followed by `" of"`
(the `\d+ of` tail of the regex `/^Day \d+ of/i`). -/
def digitsThenOf : List Char → Bool
  | [] => false
  | c :: cs => c.isDigit && digitsTail cs
where
  /-- zero or more further digits, then the literal `" of"`. -/
  digitsTail : List Char → Bool
    | [] => false
    | l@(c :: cs) => (" of".data).isPrefixOf l || (c.isDigit && digitsTail cs)

/-- The regex `/^Day \d+ of/i` on the trimmed, lower-cased description. -/
def dayNOf (t : List Char) : Bool :=
  ("day ".data).isPrefixOf t && digitsThenOf (t.drop 4)

/-- All literal start-anchored alternatives of the `feriaPatterns` regex
list of `isFeria` (lower-cased; the day-of-week and ordinal alternations
are expanded).  `/^Day \d+ of/i` is handled separately by `dayNOf`. -/
def feriaLiteralPrefixes : List (List Char) :=
  [ "monday of", "tuesday of", "wednesday of", "thursday of", "friday of",
    "saturday of",
    "monday in", "tuesday in", "wednesday in", "thursday in", "friday in",
    "saturday in",
    "weekday", "feria", "sabato", "dominica",
    "first day of", "second day of", "third day of", "fourth day of",
    "fifth day of", "sixth day of", "seventh day of",
    "ordinary time" ].map String.data

/-- `feriaPatterns.some((p) => p.test(description.trim()))`. -/
def matchesFeria (t : List Char) : Bool :=
  feriaLiteralPrefixes.any (fun p => p.isPrefixOf t) || dayNOf t

/-- The start-anchored Marian-reference literals of `bvmPatterns`
(the alternation `/^(Blessed Virgin Mary|BVM)/i` contributes two
alternatives). -/
def bvmPrefixes : List (List Char) :=
  [ "blessed virgin mary", "bvm", "our lady", "mary", "the blessed virgin"
  ].map String.data

/-- `bvmPatterns.some((p) => p.test(description.trim()))`. -/
def matchesBvm (t : List Char) : Bool :=
  bvmPrefixes.any (fun p => p.isPrefixOf t)

/-- The regex `/Memorial of.*Mary/i`: some occurrence of `"memorial of"`
followed — with no intervening newline, since `.` does not match `'\n'` —
by `"mary"`.  `maryBeforeNL` scans for `"mary"` crossing only
non-newline characters. -/
def maryBeforeNL : List Char → Bool
  | [] => false
  | l@(c :: rest) => ("mary".data).isPrefixOf l || (c != '\n' && maryBeforeNL rest)

/-- All positions scan for `/Memorial of.*Mary/i`. -/
def memMary : List Char → Bool
  | [] => false
  | l@(_ :: rest) =>
    (("memorial of".data).isPrefixOf l && maryBeforeNL (l.drop 11)) || memMary rest

/-- `saturdayBvmPatterns.some((p) => p.test(description.trim()))`:
`/Saturday/i` anywhere, or `/Memorial of.*Mary/i`, or the end-anchored
`/of the Blessed Virgin Mary$/i`. -/
def satQualifier (t : List Char) : Bool :=
  hasSubstr t ("saturday".data) || memMary t ||
    ("of the blessed virgin mary".data).isSuffixOf t

/-- `isFeria` from `src/utils/liturgical.ts`: feria / ordinal-weekday
patterns first; otherwise a Marian reference combined with a
Saturday/memorial qualifier; otherwise `false`. -/
def isFeria (s : String) : Bool :=
  let t := normBody s
  if matchesFeria t then true
  else if matchesBvm t then satQualifier t
  else false

/-! ## NovenaView: `isSunday` and `isNovenaWorthy` -/

/-- JS `String.prototype.split('-')` on the character list. -/
def splitDash : List Char → List (List Char)
  | [] => [[]]
  | c :: rest =>
    if c = '-' then [] :: splitDash rest
    else
      match splitDash rest with
      | [] => [[c]]
      | h :: t => (c :: h) :: t

/-- Value of an all-digit character run, `none` on any non-digit. -/
def digitsVal : List Char → Nat → Option Nat
  | [], acc => some acc
  | c :: cs, acc =>
    if c.isDigit then digitsVal cs (10 * acc + (c.toNat - 48)) else none

/-- JS `Number(part)` for the numeric components of a `YYYY-MM-DD` string
(non-numeric input degrades to `0`, which keeps the embedded `isSunday`
total, as `getDay()` on an invalid `Date` never equals `0` via `NaN`). -/
def parseNatPart (l : List Char) : Nat :=
  (match l with
    | [] => none
    | _ => digitsVal l 0).getD 0

/-- Day of week (0 = Sunday) of a Gregorian date, Sakamoto's method —
the value of `new Date(y, m-1, d).getDay()` for an in-range date. -/
def dayOfWeek (y m d : Nat) : Nat :=
  let t : List Nat := [0, 3, 2, 5, 0, 3, 5, 1, 4, 6, 2, 4]
  let y' := if m < 3 then y - 1 else y
  (y' + y' / 4 - y' / 100 + y' / 400 + t.getD (m - 1) 0 + d) % 7

/-- `isSunday` from `NovenaView.vue`: split a `YYYY-MM-DD` string and test
`getDay() === 0`. -/
def isSunday (dateStr : String) : Bool :=
  match splitDash dateStr.data with
  | y :: m :: d :: _ =>
    dayOfWeek (parseNatPart y) (parseNatPart m) (parseNatPart d) == 0
  | _ => false

/-- `isNovenaWorthy` from `NovenaView.vue`: reject ferias; reject ordinary
Sundays (rank contains "sunday" / "dominica" / "ordinary", or title
contains "ordinary time", case-insensitively); reject empty / whitespace
titles or ranks; accept everything else. -/
def isNovenaWorthy (title rank dateStr : String) : Bool :=
  if isFeria title then false
  else if isSunday dateStr &&
      (hasSubstr (toLowerList rank.data) ("sunday".data) ||
       hasSubstr (toLowerList rank.data) ("dominica".data) ||
       hasSubstr (toLowerList rank.data) ("ordinary".data) ||
       hasSubstr (toLowerList title.data) ("ordinary time".data)) then false
  else if trimList title.data = [] || trimList rank.data = [] then false
  else true

/-! ## Association lists: JS objects / `Map`s keyed by strings -/

/-- JS property / `Map` read: first (only) binding of the key. -/
def getAssoc {α : Type} : List (String × α) → String → Option α
  | [], _ => none
  | p :: rest, k => if p.1 = k then some p.2 else getAssoc rest k

/-- JS property / `Map` write: replace in place, else append. -/
def setAssoc {α : Type} : List (String × α) → String → α → List (String × α)
  | [], k, v => [(k, v)]
  | p :: rest, k, v => if p.1 = k then (k, v) :: rest else p :: setAssoc rest k v

/-! ## Engine data model -/

/-- One per-calendar cell of a feast comparison (the shape of
`FeastComparison['calendars'][cal]` in the comparison view; optional TS
fields become `Option`). -/
structure CalEntry where
  present : Bool
  description : Option String := none
  rank : Option String := none
  color : Option String := none
  dateField : Option String := none
  transferred : Option Bool := none
  rankChanged : Option Bool := none
deriving DecidableEq, Repr

/-- A `FeastComparison`: canonical name, per-calendar entries, and the
calendar that first contributed the feast. -/
structure FeastComparison where
  name : String
  calendars : List (String × CalEntry)
  baseCalendar : Option String
deriving DecidableEq, Repr

/-- One observance as delivered by the Day-Lookup service (`desc`, `rank`,
`color`; TS `undefined` on `rank`/`color` is conflated with `""`, which the
code's `|| ''` defaulting makes observationally identical). -/
structure Observance where
  desc : String
  rank : String
  color : String
deriving DecidableEq, Repr

/-- `DayInfo.desc` restricted to the fields the engine reads: the principal
observance (if any) and the commemorations. -/
structure DayDesc where
  day : Option Observance
  commemorations : List Observance
deriving DecidableEq, Repr

/-- One row of `calendarData`: a calendar name and its loaded day info
(`none` after a failed lookup). -/
structure CalendarDayData where
  calendar : String
  dayInfo : Option DayDesc
deriving DecidableEq, Repr

/-- One search-service result (`SearchResult` in `api.ts`). -/
structure SearchMatch where
  name : String
  description : String
  rank : String
  color : String
  date : Option String
  score : ℚ
deriving DecidableEq, Repr

/-- `(m.score || 0)` — the identity on a required numeric score field. -/
def effScore (m : SearchMatch) : ℚ := m.score

/-- The search service as an oracle: calendar and query to either a result
list or `none` for a thrown error. -/
def SearchOracle : Type := String → String → Option (List SearchMatch)

/-! ## Grouping phase (`generateFeastComparisons` + `addFeastToComparison`) -/

/-- The entry recorded for a direct observance:
`{ present: true, description, rank, color }`. -/
def presentEntry (desc rank color : String) : CalEntry :=
  { present := true, description := some desc, rank := some rank,
    color := some color }

/-- `addFeastToComparison`: create the comparison on first encounter (the
creating calendar becomes `baseCalendar`), then store the entry under the
calendar key. -/
def addFeastToComparison (allFeasts : List (String × FeastComparison))
    (feastName calendar : String) (data : CalEntry) :
    List (String × FeastComparison) :=
  let m :=
    match getAssoc allFeasts feastName with
    | some _ => allFeasts
    | none =>
      setAssoc allFeasts feastName
        { name := feastName, calendars := [], baseCalendar := some calendar }
  match getAssoc m feastName with
  | none => m
  | some comp =>
    setAssoc m feastName
      { comp with calendars := setAssoc comp.calendars calendar data }

/-- The per-observance step of the grouping loop: skip falsy (empty)
descriptions and ferias, otherwise record a `present` entry. -/
def considerObservance (m : List (String × FeastComparison))
    (calendar : String) (o : Observance) : List (String × FeastComparison) :=
  if o.desc ≠ "" ∧ isFeria o.desc = false then
    addFeastToComparison m o.desc calendar (presentEntry o.desc o.rank o.color)
  else m

/-- One calendar's contribution to the grouping: the principal observance,
then each commemoration, in order; a failed lookup contributes nothing. -/
def addCalendarFeasts (m : List (String × FeastComparison))
    (cd : CalendarDayData) : List (String × FeastComparison) :=
  match cd.dayInfo with
  | none => m
  | some dayData =>
    let m1 :=
      match dayData.day with
      | some o => considerObservance m cd.calendar o
      | none => m
    dayData.commemorations.foldl (fun acc o => considerObservance acc cd.calendar o) m1

/-- The grouping phase of `generateFeastComparisons`: fold all calendar
rows into the feast map, in iteration order. -/
def groupFeasts (calendarData : List CalendarDayData) :
    List (String × FeastComparison) :=
  calendarData.foldl addCalendarFeasts []

/-! ## Secondary search (`findFeastInOtherCalendars`) -/

/-- `searchResults.reduce(...)`: keep the strictly higher-scoring match,
the incumbent on ties — seeded with the first element. -/
def bestMatch (m : SearchMatch) (ms : List SearchMatch) : SearchMatch :=
  ms.foldl (fun best cur => if effScore best < effScore cur then cur else best) m

/-- The calendars the search loop runs over:
`selectedCalendars.filter((cal) => !comparison.calendars[cal]?.present)`.
Each element of this list triggers exactly one `api.searchFeasts` call. -/
def calendarsWithoutFeast (sel : List String) (comp : FeastComparison) :
    List String :=
  sel.filter (fun cal =>
    !(((getAssoc comp.calendars cal).map (fun e => e.present)).getD false))

/-- The `FoundElsewhere` entry built from an accepted best match
(`transferred` is `baseCalendar !== calendar`; `rankChanged` compares the
base calendar's recorded rank with the match's rank). -/
def foundEntry (comp : FeastComparison) (cal : String) (best : SearchMatch) :
    CalEntry :=
  { present := false
    description := some best.description
    rank := some best.rank
    color := some best.color
    dateField := best.date
    transferred := some (decide (comp.baseCalendar ≠ some cal))
    rankChanged :=
      some (decide
        (((comp.baseCalendar.bind (fun b => getAssoc comp.calendars b)).bind
            (fun e => e.rank)) ≠ some best.rank)) }

/-- The body of the search loop for one calendar: a failed search or an
empty result list changes nothing; a non-empty list is accepted only when
the best score is strictly greater than 0.9. -/
def searchStep (oracle : SearchOracle) (comp : FeastComparison)
    (cal : String) : FeastComparison :=
  match oracle cal comp.name with
  | none => comp
  | some [] => comp
  | some (m :: ms) =>
    let best := bestMatch m ms
    if mkRat 9 10 < effScore best then
      { comp with calendars := setAssoc comp.calendars cal (foundEntry comp cal best) }
    else comp

/-- `findFeastInOtherCalendars`: run the search loop over every selected
calendar that does not already hold the feast as present. -/
def findFeastInOtherCalendars (oracle : SearchOracle) (sel : List String)
    (comp : FeastComparison) : FeastComparison :=
  (calendarsWithoutFeast sel comp).foldl (searchStep oracle) comp

/-! ## Full run and status classification -/

/-- The final sort of `generateFeastComparisons`
(`localeCompare` embedded as code-point order on names). -/
def sortByName (l : List FeastComparison) : List FeastComparison :=
  l.insertionSort (fun a b => a.name ≤ b.name)

/-- One reconciliation run of `generateFeastComparisons`: group the direct
observances, run the secondary search per feast, sort by name. -/
def reconcile (oracle : SearchOracle) (sel : List String)
    (calendarData : List CalendarDayData) : List FeastComparison :=
  sortByName ((groupFeasts calendarData).map
    (fun p => findFeastInOtherCalendars oracle sel p.2))

/-- `getFeastStatus`: display status of one calendar's cell. -/
def getFeastStatus (comp : FeastComparison) (calendar : String) : String :=
  match getAssoc comp.calendars calendar with
  | none => ("absent")
  | some calData =>
    if calData.present then ("present")
    else if calData.transferred.getD false then ("transferred")
    else if calData.rankChanged.getD false then ("rank-changed")
    else ("found-elsewhere")

/-! ## Association-list lemmas -/

theorem getAssoc_setAssoc_self {α : Type} (l : List (String × α)) (k : String) (v : α) :
    getAssoc (setAssoc l k v) k = some v := by
  induction l with
  | nil => simp [getAssoc, setAssoc]
  | cons p rest ih =>
    by_cases h : p.1 = k
    · simp [getAssoc, setAssoc, h]
    · simp [getAssoc, setAssoc, h, ih]

theorem getAssoc_setAssoc_ne {α : Type} (l : List (String × α)) (k k' : String) (v : α)
    (h : k' ≠ k) : getAssoc (setAssoc l k v) k' = getAssoc l k' := by
  induction l with
  | nil => simp [getAssoc, setAssoc, Ne.symm h]
  | cons p rest ih =>
    simp only [setAssoc]
    by_cases hp : p.1 = k
    · rw [if_pos hp]
      simp [getAssoc, Ne.symm h, hp]
    · rw [if_neg hp]
      simp [getAssoc, ih]

theorem getAssoc_setAssoc_cases {α : Type} {l : List (String × α)} {k k' : String} {v w : α}
    (h : getAssoc (setAssoc l k v) k' = some w) :
    (k' = k ∧ w = v) ∨ getAssoc l k' = some w := by
  by_cases hk : k' = k
  · subst hk
    rw [getAssoc_setAssoc_self] at h
    exact Or.inl ⟨rfl, (Option.some.injEq _ _ ▸ h).symm⟩
  · rw [getAssoc_setAssoc_ne l k k' v hk] at h
    exact Or.inr h

theorem getAssoc_mem {α : Type} {l : List (String × α)} {k : String} {v : α}
    (h : getAssoc l k = some v) : (k, v) ∈ l := by
  induction l with
  | nil => simp [getAssoc] at h
  | cons p rest ih =>
    by_cases hp : p.1 = k
    · simp [getAssoc, hp] at h
      have hpv : p = (k, v) := by
        cases p
        simp_all
      rw [← hpv]
      exact List.mem_cons_self _ _
    · simp [getAssoc, hp] at h
      exact List.mem_cons_of_mem _ (ih h)

theorem setAssoc_of_getAssoc_none {α : Type} {l : List (String × α)} {k : String} (v : α)
    (h : getAssoc l k = none) : setAssoc l k v = l ++ [(k, v)] := by
  induction l with
  | nil => simp [setAssoc]
  | cons p rest ih =>
    by_cases hp : p.1 = k
    · simp [getAssoc, hp] at h
    · simp [getAssoc, hp] at h
      simp [setAssoc, hp, ih h]

theorem setAssoc_append_same {α : Type} {l : List (String × α)} {k : String} (v w : α)
    (h : getAssoc l k = none) : setAssoc (l ++ [(k, w)]) k v = l ++ [(k, v)] := by
  induction l with
  | nil => simp [setAssoc]
  | cons p rest ih =>
    by_cases hp : p.1 = k
    · simp [getAssoc, hp] at h
    · simp [getAssoc, hp] at h
      simp [setAssoc, hp, ih h]

theorem mem_setAssoc {α : Type} {l : List (String × α)} {k : String} {v : α} {p : String × α}
    (h : p ∈ setAssoc l k v) : p ∈ l ∨ p = (k, v) := by
  induction l with
  | nil => simp [setAssoc] at h; exact Or.inr h
  | cons q rest ih =>
    by_cases hq : q.1 = k
    · simp [setAssoc, hq] at h
      rcases h with h | h
      · exact Or.inr h
      · exact Or.inl (List.mem_cons_of_mem _ h)
    · simp [setAssoc, hq] at h
      rcases h with h | h
      · exact Or.inl (by simp [h])
      · rcases ih h with h1 | h1
        · exact Or.inl (List.mem_cons_of_mem _ h1)
        · exact Or.inr h1

/-! ## Prefix facts for the classifier -/

/-- Two boolean prefixes of the same list are comparable. -/
theorem isPrefixOf_total : ∀ (t p q : List Char),
    p.isPrefixOf t = true → q.isPrefixOf t = true →
    p.isPrefixOf q = true ∨ q.isPrefixOf p = true := by
  intro t
  induction t with
  | nil =>
    intro p q hp hq
    cases p <;> cases q <;> simp_all [List.isPrefixOf]
  | cons c t ih =>
    intro p q hp hq
    match p, q with
    | [], _ => left; simp [List.isPrefixOf]
    | _ :: _, [] => right; simp [List.isPrefixOf]
    | a :: as, b :: bs =>
      simp only [List.isPrefixOf, Bool.and_eq_true, beq_iff_eq] at hp hq ⊢
      obtain ⟨rfl, hp⟩ := hp
      obtain ⟨rfl, hq⟩ := hq
      rcases ih as bs hp hq with h | h
      · exact Or.inl ⟨rfl, h⟩
      · exact Or.inr ⟨rfl, h⟩

/-- No feria-pattern prefix (including the `"day "` stem of
`/^Day \d+ of/i`) is comparable with any Marian-reference prefix. -/
theorem feria_bvm_incomparable :
    ∀ p ∈ feriaLiteralPrefixes ++ ["day ".data], ∀ q ∈ bvmPrefixes,
      p.isPrefixOf q = false ∧ q.isPrefixOf p = false := by decide

theorem dayNOf_prefix {t : List Char} (h : dayNOf t = true) :
    ("day ".data).isPrefixOf t = true := by
  simp only [dayNOf, Bool.and_eq_true] at h
  exact h.1

/-- A description that matches a Marian-reference pattern at the start
cannot also match one of the feria patterns. -/
theorem matchesBvm_not_matchesFeria {t : List Char}
    (h : matchesBvm t = true) : matchesFeria t = false := by
  rcases List.any_eq_true.mp h with ⟨q, hqmem, hq⟩
  by_contra hf
  rw [Bool.not_eq_false] at hf
  have hp : ∃ p ∈ feriaLiteralPrefixes ++ ["day ".data], p.isPrefixOf t = true := by
    rcases Bool.or_eq_true_iff.mp hf with h1 | h1
    · rcases List.any_eq_true.mp h1 with ⟨p, hpmem, hp⟩
      exact ⟨p, List.mem_append_left _ hpmem, hp⟩
    · exact ⟨"day ".data, List.mem_append_right _ (by simp), dayNOf_prefix h1⟩
  rcases hp with ⟨p, hpmem, hp⟩
  have hinc := feria_bvm_incomparable p hpmem q hqmem
  rcases isPrefixOf_total t p q hp hq with h2 | h2
  · rw [hinc.1] at h2; exact Bool.false_ne_true h2
  · rw [hinc.2] at h2; exact Bool.false_ne_true h2

/-! ## Best-match selection -/

/-- The `reduce` step keeps the strictly better candidate. -/
theorem bestMatch_first_max (m : SearchMatch) (ms : List SearchMatch) :
    ∃ p s, m :: ms = p ++ bestMatch m ms :: s ∧
      (∀ x ∈ p, effScore x < effScore (bestMatch m ms)) ∧
      (∀ x ∈ m :: ms, effScore x ≤ effScore (bestMatch m ms)) := by
  induction ms generalizing m with
  | nil =>
    exact ⟨[], [], rfl, by simp, by simp [bestMatch]⟩
  | cons c t ih =>
    have hstep : bestMatch m (c :: t) =
        bestMatch (if effScore m < effScore c then c else m) t := rfl
    by_cases h : effScore m < effScore c
    · rw [if_pos h] at hstep
      rcases ih c with ⟨p, s, heq, hlt, hle⟩
      refine ⟨m :: p, s, ?_, ?_, ?_⟩
      · rw [hstep, List.cons_append]
        exact congrArg (List.cons m) heq
      · intro x hx
        rw [hstep]
        rcases List.mem_cons.mp hx with rfl | hx
        · exact lt_of_lt_of_le h (hle c (List.mem_cons_self _ _))
        · exact hlt x hx
      · intro x hx
        rw [hstep]
        rcases List.mem_cons.mp hx with rfl | hx
        · exact le_of_lt (lt_of_lt_of_le h (hle c (List.mem_cons_self _ _)))
        · exact hle x hx
    · rw [if_neg h] at hstep
      rcases ih m with ⟨p, s, heq, hlt, hle⟩
      have hc : effScore c ≤ effScore m := le_of_not_lt h
      cases p with
      | nil =>
        have h2 : m = bestMatch m t ∧ t = s := by simpa using heq
        refine ⟨[], c :: t, ?_, ?_, ?_⟩
        · rw [hstep, ← h2.1]; rfl
        · intro x hx; simp at hx
        · intro x hx
          rw [hstep, ← h2.1]
          rcases List.mem_cons.mp hx with rfl | hx
          · exact le_refl _
          · rcases List.mem_cons.mp hx with rfl | hx
            · exact hc
            · have h3 := hle x (List.mem_cons_of_mem _ hx)
              rw [← h2.1] at h3; exact h3
      | cons b' p'' =>
        have h2 : m = b' ∧ t = p'' ++ bestMatch m t :: s := by
          simpa using heq
        obtain ⟨hb, ht⟩ := h2
        subst hb
        have hmlt : effScore m < effScore (bestMatch m t) :=
          hlt m (List.mem_cons_self _ _)
        refine ⟨m :: c :: p'', s, ?_, ?_, ?_⟩
        · rw [hstep, List.cons_append, List.cons_append, ← ht]
        · intro x hx
          rw [hstep]
          rcases List.mem_cons.mp hx with rfl | hx
          · exact hmlt
          · rcases List.mem_cons.mp hx with rfl | hx
            · exact lt_of_le_of_lt hc hmlt
            · exact hlt x (List.mem_cons_of_mem _ hx)
        · intro x hx
          rw [hstep]
          rcases List.mem_cons.mp hx with rfl | hx
          · exact le_of_lt hmlt
          · rcases List.mem_cons.mp hx with rfl | hx
            · exact le_of_lt (lt_of_le_of_lt hc hmlt)
            · exact hle x (List.mem_cons_of_mem _ hx)

/-! ## Search-step characterization -/

theorem searchStep_of_none {o : SearchOracle} {comp : FeastComparison} {cal : String}
    (h : o cal comp.name = none) : searchStep o comp cal = comp := by
  simp [searchStep, h]

theorem searchStep_of_nil {o : SearchOracle} {comp : FeastComparison} {cal : String}
    (h : o cal comp.name = some []) : searchStep o comp cal = comp := by
  simp [searchStep, h]

theorem searchStep_of_cons {o : SearchOracle} {comp : FeastComparison} {cal : String}
    {m : SearchMatch} {ms : List SearchMatch} (h : o cal comp.name = some (m :: ms)) :
    searchStep o comp cal =
      if mkRat 9 10 < effScore (bestMatch m ms) then
        { comp with calendars :=
            setAssoc comp.calendars cal (foundEntry comp cal (bestMatch m ms)) }
      else comp := by
  simp [searchStep, h]

theorem searchStep_name (o : SearchOracle) (comp : FeastComparison) (cal : String) :
    (searchStep o comp cal).name = comp.name := by
  rcases h : o cal comp.name with _ | l
  · rw [searchStep_of_none h]
  · cases l with
    | nil => rw [searchStep_of_nil h]
    | cons m ms =>
      rw [searchStep_of_cons h]
      split <;> rfl

theorem searchStep_base (o : SearchOracle) (comp : FeastComparison) (cal : String) :
    (searchStep o comp cal).baseCalendar = comp.baseCalendar := by
  rcases h : o cal comp.name with _ | l
  · rw [searchStep_of_none h]
  · cases l with
    | nil => rw [searchStep_of_nil h]
    | cons m ms =>
      rw [searchStep_of_cons h]
      split <;> rfl

theorem getAssoc_searchStep_ne (o : SearchOracle) (comp : FeastComparison)
    {cal k : String} (h : k ≠ cal) :
    getAssoc (searchStep o comp cal).calendars k = getAssoc comp.calendars k := by
  rcases ho : o cal comp.name with _ | l
  · rw [searchStep_of_none ho]
  · cases l with
    | nil => rw [searchStep_of_nil ho]
    | cons m ms =>
      rw [searchStep_of_cons ho]
      split
      · exact getAssoc_setAssoc_ne _ _ _ _ h
      · rfl

/-! ## The search loop (`foldl searchStep`) -/

theorem foldl_searchStep_name (o : SearchOracle) :
    ∀ (cals : List String) (comp : FeastComparison),
      (List.foldl (searchStep o) comp cals).name = comp.name := by
  intro cals
  induction cals with
  | nil => intro comp; rfl
  | cons c rest ih =>
    intro comp
    rw [List.foldl_cons, ih, searchStep_name]

theorem foldl_searchStep_base (o : SearchOracle) :
    ∀ (cals : List String) (comp : FeastComparison),
      (List.foldl (searchStep o) comp cals).baseCalendar = comp.baseCalendar := by
  intro cals
  induction cals with
  | nil => intro comp; rfl
  | cons c rest ih =>
    intro comp
    rw [List.foldl_cons, ih, searchStep_base]

theorem foldl_searchStep_notmem (o : SearchOracle) :
    ∀ (cals : List String) (comp : FeastComparison) (k : String), k ∉ cals →
      getAssoc (List.foldl (searchStep o) comp cals).calendars k =
        getAssoc comp.calendars k := by
  intro cals
  induction cals with
  | nil => intro comp k _; rfl
  | cons c rest ih =>
    intro comp k hk
    have hkc : k ≠ c := fun hh => hk (hh ▸ List.mem_cons_self c rest)
    rw [List.foldl_cons, ih _ _ (fun hmem => hk (List.mem_cons_of_mem _ hmem)),
      getAssoc_searchStep_ne o comp hkc]

/-- Every binding after the search loop is either an original binding or a
newly written `FoundElsewhere` entry: non-present, with `transferred`
computed from the (unchanged) base calendar of the comparison. -/
theorem foldl_searchStep_entries (o : SearchOracle) :
    ∀ (cals : List String) (comp : FeastComparison) (k : String) (e : CalEntry),
      getAssoc (List.foldl (searchStep o) comp cals).calendars k = some e →
      getAssoc comp.calendars k = some e ∨
        (k ∈ cals ∧ e.present = false ∧
          e.transferred = some (decide (comp.baseCalendar ≠ some k))) := by
  intro cals
  induction cals with
  | nil => intro comp k e h; exact Or.inl h
  | cons c rest ih =>
    intro comp k e h
    rw [List.foldl_cons] at h
    rcases ih _ _ _ h with h1 | ⟨hmem, hpres, htr⟩
    · by_cases hk : k = c
      · subst hk
        rcases ho : o k comp.name with _ | l
        · rw [searchStep_of_none ho] at h1; exact Or.inl h1
        · cases l with
          | nil => rw [searchStep_of_nil ho] at h1; exact Or.inl h1
          | cons m ms =>
            rw [searchStep_of_cons ho] at h1
            by_cases hsc : mkRat 9 10 < effScore (bestMatch m ms)
            · rw [if_pos hsc] at h1
              rcases getAssoc_setAssoc_cases h1 with ⟨_, he⟩ | h2
              · refine Or.inr ⟨List.mem_cons_self _ _, ?_, ?_⟩
                · rw [he]; rfl
                · rw [he]; rfl
              · exact Or.inl h2
            · rw [if_neg hsc] at h1; exact Or.inl h1
      · rw [getAssoc_searchStep_ne o comp hk] at h1
        exact Or.inl h1
    · rw [searchStep_base] at htr
      exact Or.inr ⟨List.mem_cons_of_mem _ hmem, hpres, htr⟩

/-! ## Grouping-phase invariants -/

/-- Every recorded per-calendar entry of the comparison is `present`. -/
def AllPresent (c : FeastComparison) : Prop :=
  ∀ k e, getAssoc c.calendars k = some e → e.present = true

/-- The base calendar exists and holds a `present` entry. -/
def BasePresent (c : FeastComparison) : Prop :=
  ∃ b e, c.baseCalendar = some b ∧ getAssoc c.calendars b = some e ∧
    e.present = true

/-- Invariant of the feast map during the grouping phase. -/
def GoodMap (m : List (String × FeastComparison)) : Prop :=
  ∀ p ∈ m, AllPresent p.2 ∧ BasePresent p.2

/-- First encounter of a feast: a fresh comparison is appended, based at
the contributing calendar, holding that calendar's entry. -/
theorem addFeastToComparison_of_none {m : List (String × FeastComparison)}
    {n : String} (cal : String) (data : CalEntry) (hget : getAssoc m n = none) :
    addFeastToComparison m n cal data =
      m ++ [(n, ⟨n, [(cal, data)], some cal⟩)] := by
  have hset : setAssoc m n (⟨n, [], some cal⟩ : FeastComparison) =
      m ++ [(n, ⟨n, [], some cal⟩)] := setAssoc_of_getAssoc_none _ hget
  have hget2 : getAssoc (setAssoc m n (⟨n, [], some cal⟩ : FeastComparison)) n =
      some ⟨n, [], some cal⟩ := getAssoc_setAssoc_self _ _ _
  simp only [addFeastToComparison, hget, hset, hset ▸ hget2]
  exact setAssoc_append_same _ _ hget

/-- Later encounter of a feast: only the calendar entry is stored; name and
base calendar are untouched. -/
theorem addFeastToComparison_of_some {m : List (String × FeastComparison)}
    {n : String} {comp : FeastComparison} (cal : String) (data : CalEntry)
    (hget : getAssoc m n = some comp) :
    addFeastToComparison m n cal data =
      setAssoc m n { comp with calendars := setAssoc comp.calendars cal data } := by
  simp only [addFeastToComparison, hget]

theorem addFeastToComparison_good {m : List (String × FeastComparison)}
    {n cal : String} {data : CalEntry} (hm : GoodMap m)
    (hd : data.present = true) : GoodMap (addFeastToComparison m n cal data) := by
  rcases hget : getAssoc m n with _ | comp
  · rw [addFeastToComparison_of_none cal data hget]
    intro p hp
    rcases List.mem_append.mp hp with hp1 | hp1
    · exact hm p hp1
    · have hpv : p = (n, (⟨n, [(cal, data)], some cal⟩ : FeastComparison)) := by
        simpa using hp1
      rw [hpv]
      constructor
      · intro k e hke
        simp only [getAssoc] at hke
        by_cases hk : cal = k
        · rw [if_pos hk] at hke
          have : data = e := by simpa using hke
          rw [← this]; exact hd
        · rw [if_neg hk] at hke
          simp [getAssoc] at hke
      · exact ⟨cal, data, rfl, by simp [getAssoc], hd⟩
  · rw [addFeastToComparison_of_some cal data hget]
    intro p hp
    rcases mem_setAssoc hp with hp1 | hp1
    · exact hm p hp1
    · have hcomp := hm (n, comp) (getAssoc_mem hget)
      rw [hp1]
      constructor
      · intro k e hke
        rcases getAssoc_setAssoc_cases hke with ⟨_, he⟩ | h2
        · rw [he]; exact hd
        · exact hcomp.1 k e h2
      · rcases hcomp.2 with ⟨b, eb, hb, hbe, hbp⟩
        by_cases hbc : b = cal
        · subst hbc
          exact ⟨b, data, hb, getAssoc_setAssoc_self _ _ _, hd⟩
        · exact ⟨b, eb, hb, by rw [getAssoc_setAssoc_ne _ _ _ _ hbc]; exact hbe, hbp⟩

theorem considerObservance_good {m : List (String × FeastComparison)}
    {cal : String} {o : Observance} (hm : GoodMap m) :
    GoodMap (considerObservance m cal o) := by
  unfold considerObservance
  split
  · exact addFeastToComparison_good hm rfl
  · exact hm

theorem foldl_considerObservance_good {cal : String} :
    ∀ (l : List Observance) (m : List (String × FeastComparison)), GoodMap m →
      GoodMap (List.foldl (fun acc o => considerObservance acc cal o) m l) := by
  intro l
  induction l with
  | nil => intro m hm; exact hm
  | cons o rest ih =>
    intro m hm
    rw [List.foldl_cons]
    exact ih _ (considerObservance_good hm)

theorem addCalendarFeasts_good {m : List (String × FeastComparison)}
    {cd : CalendarDayData} (hm : GoodMap m) :
    GoodMap (addCalendarFeasts m cd) := by
  rcases hdi : cd.dayInfo with _ | dayData
  · simpa [addCalendarFeasts, hdi] using hm
  · rcases hday : dayData.day with _ | o
    · simp only [addCalendarFeasts, hdi, hday]
      exact foldl_considerObservance_good _ _ hm
    · simp only [addCalendarFeasts, hdi, hday]
      exact foldl_considerObservance_good _ _ (considerObservance_good hm)

theorem groupFeasts_good (calendarData : List CalendarDayData) :
    GoodMap (groupFeasts calendarData) := by
  unfold groupFeasts
  have h : ∀ (l : List CalendarDayData) (m : List (String × FeastComparison)),
      GoodMap m → GoodMap (List.foldl addCalendarFeasts m l) := by
    intro l
    induction l with
    | nil => intro m hm; exact hm
    | cons cd rest ih =>
      intro m hm
      rw [List.foldl_cons]
      exact ih _ (addCalendarFeasts_good hm)
  exact h _ [] (by intro p hp; simp at hp)

/-! ## Run-level invariant -/

/-- Decompose membership in a run's output: every output comparison is the
search-phase image of a grouping-phase comparison satisfying the grouping
invariants. -/
theorem reconcile_mem {o : SearchOracle} {sel : List String}
    {cd : List CalendarDayData} {comp : FeastComparison}
    (h : comp ∈ reconcile o sel cd) :
    ∃ g, AllPresent g ∧ BasePresent g ∧
      comp = findFeastInOtherCalendars o sel g := by
  unfold reconcile sortByName at h
  rw [(List.perm_insertionSort _ _).mem_iff] at h
  rcases List.mem_map.mp h with ⟨p, hp, hcomp⟩
  have hg := groupFeasts_good cd p hp
  exact ⟨p.2, hg.1, hg.2, hcomp.symm⟩

/-- Core invariant of a finished run: the base calendar is recorded
`present`, and every entry is either `present` or a search-produced entry
with `transferred = some true` written for a calendar different from the
base calendar. -/
theorem run_inv {o : SearchOracle} {sel : List String}
    {cd : List CalendarDayData} {comp : FeastComparison}
    (h : comp ∈ reconcile o sel cd) :
    BasePresent comp ∧
      ∀ k e, getAssoc comp.calendars k = some e →
        e.present = true ∨
          (e.present = false ∧ e.transferred = some true ∧
            comp.baseCalendar ≠ some k) := by
  rcases reconcile_mem h with ⟨g, hall, ⟨b, eb, hb, hbe, hbp⟩, hcomp⟩
  have hbnot : b ∉ calendarsWithoutFeast sel g := by
    intro hmem
    have := (List.mem_filter.mp hmem).2
    rw [hbe] at this
    simp [hbp] at this
  have hbase : comp.baseCalendar = some b := by
    rw [hcomp]
    unfold findFeastInOtherCalendars
    rw [foldl_searchStep_base]
    exact hb
  have hbentry : getAssoc comp.calendars b = some eb := by
    rw [hcomp]
    unfold findFeastInOtherCalendars
    rw [foldl_searchStep_notmem o _ _ _ hbnot]
    exact hbe
  refine ⟨⟨b, eb, hbase, hbentry, hbp⟩, ?_⟩
  intro k e hke
  rw [hcomp] at hke
  unfold findFeastInOtherCalendars at hke
  rcases foldl_searchStep_entries o _ _ _ _ hke with h1 | ⟨hmem, hpres, htr⟩
  · exact Or.inl (hall k e h1)
  · have hkb : k ≠ b := by
      intro hh
      exact hbnot (hh ▸ hmem)
    have hgne : g.baseCalendar ≠ some k := by
      rw [hb]
      intro hh
      exact hkb (Option.some.injEq _ _ ▸ hh).symm
    refine Or.inr ⟨hpres, ?_, ?_⟩
    · rw [htr, decide_eq_true hgne]
    · rw [hbase]
      intro hh
      exact hkb (Option.some.injEq _ _ ▸ hh).symm

/-! ## Concrete fixtures for witnesses and counterexamples -/

/-- A search match with a passing score (0.95 > 0.9). -/
def matchHigh : SearchMatch :=
  ⟨("Saint X"), ("Saint X"), ("Memorial"), ("red"), some ("2024-01-01"), mkRat 95 100⟩

/-- A search match with a failing score (0.5 ≤ 0.9). -/
def matchLow : SearchMatch :=
  ⟨("Saint X"), ("Saint X"), ("Feria"), ("green"), none, mkRat 1 2⟩

/-- A search oracle that always returns the single high-scoring match. -/
def oracleHigh : SearchOracle := fun _ _ => some [matchHigh]

/-- A search oracle whose every call fails (the thrown-error branch). -/
def oracleFail : SearchOracle := fun _ _ => none

/-- Day data: calendar `a` observes feast `Saint X`; calendar `b` failed to
load. -/
def cdAB : List CalendarDayData :=
  [⟨("a"), some ⟨some ⟨("Saint X"), ("Feast"), ("white")⟩, []⟩⟩, ⟨("b"), none⟩]

/-- The comparison for `Saint X` after grouping `cdAB` (only `a` present). -/
def compSaintX : FeastComparison :=
  ⟨("Saint X"), [(("a"), presentEntry ("Saint X") ("Feast") ("white"))], some ("a")⟩

/-- The `FoundElsewhere` entry written for calendar `b` when `oracleHigh`
answers the search. -/
def entryFoundB : CalEntry :=
  { present := false, description := some ("Saint X"), rank := some ("Memorial"),
    color := some ("red"), dateField := some ("2024-01-01"),
    transferred := some true, rankChanged := some true }

/-- The comparison for `Saint X` after the full run against `oracleHigh`. -/
def compFoundAB : FeastComparison :=
  ⟨("Saint X"),
    [(("a"), presentEntry ("Saint X") ("Feast") ("white")), (("b"), entryFoundB)],
    some ("a")⟩

/-! ## Claim theorems -/

/-- Claim C1: for a selected calendar where the feast has no entry yet, the
secondary search step accepts the best-scoring match as a non-present
(`FoundElsewhere`) entry exactly when the best score is strictly greater
than 0.9; when the best score is at most 0.9, when the result list is
empty, and when the search call fails, the calendar keeps no entry (it
stays absent). -/
theorem claim_C1_search_threshold (o : SearchOracle) (sel : List String)
    (comp : FeastComparison) (cal : String) (hnd : sel.Nodup) (hsel : cal ∈ sel)
    (hnone : getAssoc comp.calendars cal = none) :
    (∀ m ms, o cal comp.name = some (m :: ms) →
        mkRat 9 10 < effScore (bestMatch m ms) →
        ∃ e, getAssoc (findFeastInOtherCalendars o sel comp).calendars cal = some e ∧
          e.present = false ∧ e.description = some (bestMatch m ms).description ∧
          e.rank = some (bestMatch m ms).rank ∧ e.dateField = (bestMatch m ms).date) ∧
    (∀ m ms, o cal comp.name = some (m :: ms) →
        effScore (bestMatch m ms) ≤ mkRat 9 10 →
        getAssoc (findFeastInOtherCalendars o sel comp).calendars cal = none) ∧
    (o cal comp.name = some [] →
        getAssoc (findFeastInOtherCalendars o sel comp).calendars cal = none) ∧
    (o cal comp.name = none →
        getAssoc (findFeastInOtherCalendars o sel comp).calendars cal = none) := by
  have hmem : cal ∈ calendarsWithoutFeast sel comp := by
    unfold calendarsWithoutFeast
    refine List.mem_filter.mpr ⟨hsel, ?_⟩
    rw [hnone]
    rfl
  have hnd2 : (calendarsWithoutFeast sel comp).Nodup := hnd.filter _
  obtain ⟨l1, l2, hsplit⟩ := List.append_of_mem hmem
  rw [hsplit, List.nodup_append] at hnd2
  obtain ⟨_, hl2, hdisj⟩ := hnd2
  have hnotm1 : cal ∉ l1 := fun hc => hdisj hc (List.mem_cons_self _ _)
  have hnotm2 : cal ∉ l2 := (List.nodup_cons.mp hl2).1
  have h1name : (List.foldl (searchStep o) comp l1).name = comp.name :=
    foldl_searchStep_name o l1 comp
  have h1none : getAssoc (List.foldl (searchStep o) comp l1).calendars cal = none := by
    rw [foldl_searchStep_notmem o l1 comp cal hnotm1]
    exact hnone
  have hmain : getAssoc (findFeastInOtherCalendars o sel comp).calendars cal =
      getAssoc (searchStep o (List.foldl (searchStep o) comp l1) cal).calendars cal := by
    unfold findFeastInOtherCalendars
    rw [hsplit, List.foldl_append, List.foldl_cons]
    exact foldl_searchStep_notmem o l2 _ cal hnotm2
  refine ⟨?_, ?_, ?_, ?_⟩
  · intro m ms hml hsc
    have ho : o cal (List.foldl (searchStep o) comp l1).name = some (m :: ms) := by
      rw [h1name]
      exact hml
    rw [hmain, searchStep_of_cons ho, if_pos hsc]
    exact ⟨foundEntry (List.foldl (searchStep o) comp l1) cal (bestMatch m ms),
      getAssoc_setAssoc_self _ _ _, rfl, rfl, rfl, rfl⟩
  · intro m ms hml hsc
    have ho : o cal (List.foldl (searchStep o) comp l1).name = some (m :: ms) := by
      rw [h1name]
      exact hml
    rw [hmain, searchStep_of_cons ho, if_neg (not_lt.mpr hsc)]
    exact h1none
  · intro hml
    have ho : o cal (List.foldl (searchStep o) comp l1).name = some [] := by
      rw [h1name]
      exact hml
    rw [hmain, searchStep_of_nil ho]
    exact h1none
  · intro hml
    have ho : o cal (List.foldl (searchStep o) comp l1).name = none := by
      rw [h1name]
      exact hml
    rw [hmain, searchStep_of_none ho]
    exact h1none

/-- Witness for C1 at a concrete run: two distinct calendars, `b` absent,
one search result scoring 0.95. -/
theorem claim_C1_search_threshold_witness :
    ((["a", "b"] : List String).Nodup ∧ ("b") ∈ (["a", "b"] : List String) ∧
      getAssoc compSaintX.calendars ("b") = none) ∧
    (∃ e, getAssoc (findFeastInOtherCalendars oracleHigh ["a", "b"]
          compSaintX).calendars ("b") = some e ∧
      e.present = false ∧ e.description = some (bestMatch matchHigh []).description ∧
      e.rank = some (bestMatch matchHigh []).rank ∧
      e.dateField = (bestMatch matchHigh []).date) :=
  ⟨⟨by decide, by decide, by decide⟩,
    (claim_C1_search_threshold oracleHigh ["a", "b"] compSaintX ("b")
        (by decide) (by decide) (by decide)).1 matchHigh [] rfl (by decide)⟩

/-- Claim C2: among a non-empty result list the engine's `reduce` selects a
member of the list with the maximum score, and everything strictly before
the selected match scores strictly lower — so on ties the earliest
maximal-scoring match is chosen. -/
theorem claim_C2_best_match_selection (m : SearchMatch) (ms : List SearchMatch) :
    bestMatch m ms ∈ m :: ms ∧
    (∀ x ∈ m :: ms, effScore x ≤ effScore (bestMatch m ms)) ∧
    ∃ p s, m :: ms = p ++ bestMatch m ms :: s ∧
      ∀ x ∈ p, effScore x < effScore (bestMatch m ms) := by
  rcases bestMatch_first_max m ms with ⟨p, s, heq, hlt, hle⟩
  refine ⟨?_, hle, p, s, heq, hlt⟩
  rw [heq]
  exact List.mem_append_right _ (List.mem_cons_self _ _)

/-- Witness for C2 at a concrete two-element result list. -/
theorem claim_C2_best_match_selection_witness :
    bestMatch matchHigh [matchLow] ∈ [matchHigh, matchLow] :=
  (claim_C2_best_match_selection matchHigh [matchLow]).1

/-- Claim C3: every non-present entry in a run's output was produced by the
secondary search step with `transferred` computed as
`baseCalendar != calendar`; since the base calendar is always distinct from
the calendars the search runs for, `transferred` is `true` on every such
entry. -/
theorem claim_C3_transferred_always_true (o : SearchOracle) (sel : List String)
    (cd : List CalendarDayData) (comp : FeastComparison)
    (h : comp ∈ reconcile o sel cd) (cal : String) (e : CalEntry)
    (he : getAssoc comp.calendars cal = some e) (hp : e.present = false) :
    e.transferred = some (decide (comp.baseCalendar ≠ some cal)) ∧
    comp.baseCalendar ≠ some cal ∧ e.transferred = some true := by
  rcases (run_inv h).2 cal e he with h1 | ⟨_, htr, hne⟩
  · rw [h1] at hp
    exact absurd hp (by simp)
  · refine ⟨?_, hne, htr⟩
    rw [htr, decide_eq_true hne]

/-- Witness for C3 at the concrete high-scoring run. -/
theorem claim_C3_transferred_always_true_witness :
    (compFoundAB ∈ reconcile oracleHigh ["a", "b"] cdAB ∧
      getAssoc compFoundAB.calendars ("b") = some entryFoundB ∧
      entryFoundB.present = false) ∧
    (compFoundAB.baseCalendar ≠ some ("b") ∧ entryFoundB.transferred = some true) :=
  ⟨⟨by decide, by decide, by decide⟩,
    ⟨(claim_C3_transferred_always_true oracleHigh ["a", "b"] cdAB compFoundAB
        (by decide) ("b") entryFoundB (by decide) (by decide)).2.1,
      (claim_C3_transferred_always_true oracleHigh ["a", "b"] cdAB compFoundAB
        (by decide) ("b") entryFoundB (by decide) (by decide)).2.2⟩⟩

/-- Counterexample to claim C4: an observance whose date is a Sunday
(2024-03-03) and whose rank text contains "sunday" is NOT rejected by the
comparison filtering step — the reconciliation output still contains it.
The Sunday suppression rule does not run in `generateFeastComparisons`. -/
theorem claim_C4_cex :
    isSunday ("2024-03-03") = true ∧
    hasSubstr (toLowerList ("Sunday").data) (("sunday").data) = true ∧
    isFeria ("Twenty-first Sunday in Ordinary Time") = false ∧
    (reconcile oracleFail ["a"]
        [⟨("a"), some ⟨some ⟨("Twenty-first Sunday in Ordinary Time"),
          ("Sunday"), ("green")⟩, []⟩⟩]).map (fun c => c.name) =
      [("Twenty-first Sunday in Ordinary Time")] := by
  decide

/-- Claim C4 as amended: the Sunday suppression rule (reject when the date
is a Sunday and the rank contains "sunday", "dominica" or "ordinary", or
the title contains "ordinary time", case-insensitively) is applied by the
novena-worthiness filter `isNovenaWorthy`, not by the comparison filtering
step of `generateFeastComparisons`. -/
theorem claim_C4_amended (title rank dateStr : String)
    (hsun : isSunday dateStr = true)
    (hpat : (hasSubstr (toLowerList rank.data) (("sunday").data) ||
        hasSubstr (toLowerList rank.data) (("dominica").data) ||
        hasSubstr (toLowerList rank.data) (("ordinary").data) ||
        hasSubstr (toLowerList title.data) (("ordinary time").data)) = true) :
    isNovenaWorthy title rank dateStr = false := by
  cases hf : isFeria title with
  | true => simp [isNovenaWorthy, hf]
  | false => simp [isNovenaWorthy, hf, hsun, hpat]

/-- Witness for the amended C4 at a concrete ordinary Sunday. -/
theorem claim_C4_amended_witness :
    (isSunday ("2024-03-03") = true ∧
      (hasSubstr (toLowerList ("Sunday").data) (("sunday").data) ||
        hasSubstr (toLowerList ("Sunday").data) (("dominica").data) ||
        hasSubstr (toLowerList ("Sunday").data) (("ordinary").data) ||
        hasSubstr (toLowerList ("Twenty-first Sunday in Ordinary Time").data)
          (("ordinary time").data)) = true) ∧
    isNovenaWorthy ("Twenty-first Sunday in Ordinary Time") ("Sunday")
      ("2024-03-03") = false :=
  ⟨⟨by decide, by decide⟩,
    claim_C4_amended ("Twenty-first Sunday in Ordinary Time") ("Sunday")
      ("2024-03-03") (by decide) (by decide)⟩

/-- Counterexample to claim C5: in the run over calendars `a`, `b` where
`b` has no data and the search fails, the single output feast has NO entry
recorded for `b` — absence is represented by omission, not by an explicit
`Absent` entry. -/
theorem claim_C5_cex :
    ("b") ∈ (["a", "b"] : List String) ∧
    (reconcile oracleFail ["a", "b"] cdAB).map
      (fun comp => getAssoc comp.calendars ("b")) = [none] := by
  decide

/-- Claim C5 as amended: every calendar still has a well-defined status for
every output feast, but a calendar with no direct observance and no
accepted search match has no entry at all in the `calendars` record;
`getFeastStatus` reports "absent" exactly for the missing entries, and a
run can only ever produce the statuses absent / present / transferred. -/
theorem claim_C5_amended (o : SearchOracle) (sel : List String)
    (cd : List CalendarDayData) (comp : FeastComparison)
    (h : comp ∈ reconcile o sel cd) (cal : String) :
    (getFeastStatus comp cal = ("absent") ↔ getAssoc comp.calendars cal = none) ∧
    (getFeastStatus comp cal = ("absent") ∨ getFeastStatus comp cal = ("present") ∨
      getFeastStatus comp cal = ("transferred")) := by
  rcases hg : getAssoc comp.calendars cal with _ | e
  · constructor
    · simp [getFeastStatus, hg]
    · exact Or.inl (by simp [getFeastStatus, hg])
  · rcases (run_inv h).2 cal e hg with hp | ⟨hp, htr, _⟩
    · constructor
      · constructor
        · intro habs
          rw [show getFeastStatus comp cal = ("present") by
            simp [getFeastStatus, hg, hp]] at habs
          exact absurd habs (by decide)
        · intro hcontra
          exact absurd hcontra (by simp)
      · exact Or.inr (Or.inl (by simp [getFeastStatus, hg, hp]))
    · constructor
      · constructor
        · intro habs
          rw [show getFeastStatus comp cal = ("transferred") by
            simp [getFeastStatus, hg, hp, htr]] at habs
          exact absurd habs (by decide)
        · intro hcontra
          exact absurd hcontra (by simp)
      · exact Or.inr (Or.inr (by simp [getFeastStatus, hg, hp, htr]))

/-- Witness for the amended C5 at the concrete failed-search run. -/
theorem claim_C5_amended_witness :
    compSaintX ∈ reconcile oracleFail ["a", "b"] cdAB ∧
    ((getFeastStatus compSaintX ("b") = ("absent") ↔
        getAssoc compSaintX.calendars ("b") = none) ∧
      (getFeastStatus compSaintX ("b") = ("absent") ∨
        getFeastStatus compSaintX ("b") = ("present") ∨
        getFeastStatus compSaintX ("b") = ("transferred"))) :=
  ⟨by decide,
    claim_C5_amended oracleFail ["a", "b"] cdAB compSaintX (by decide) ("b")⟩

/-- Claim C6: in every run output the base calendar is recorded with a
`present` entry (and classifies as "present"); on first creation
`addFeastToComparison` bases the feast at the contributing calendar with
its entry stored, and later encounters never change name or base. -/
theorem claim_C6_base_present :
    (∀ (o : SearchOracle) (sel : List String) (cd : List CalendarDayData)
        (comp : FeastComparison), comp ∈ reconcile o sel cd →
          ∃ b e, comp.baseCalendar = some b ∧
            getAssoc comp.calendars b = some e ∧ e.present = true ∧
            getFeastStatus comp b = ("present")) ∧
    (∀ (m : List (String × FeastComparison)) (n cal : String) (data : CalEntry),
        getAssoc m n = none →
          getAssoc (addFeastToComparison m n cal data) n =
            some ⟨n, [(cal, data)], some cal⟩) ∧
    (∀ (m : List (String × FeastComparison)) (n cal : String) (data : CalEntry)
        (c : FeastComparison), getAssoc m n = some c →
          getAssoc (addFeastToComparison m n cal data) n =
            some ⟨c.name, setAssoc c.calendars cal data, c.baseCalendar⟩) := by
  refine ⟨?_, ?_, ?_⟩
  · intro o sel cd comp h
    rcases (run_inv h).1 with ⟨b, e, hb, hbe, hbp⟩
    exact ⟨b, e, hb, hbe, hbp, by simp [getFeastStatus, hbe, hbp]⟩
  · intro m n cal data hget
    rw [addFeastToComparison_of_none cal data hget,
      ← setAssoc_of_getAssoc_none (⟨n, [(cal, data)], some cal⟩ : FeastComparison) hget]
    exact getAssoc_setAssoc_self _ _ _
  · intro m n cal data c hget
    rw [addFeastToComparison_of_some cal data hget]
    exact getAssoc_setAssoc_self _ _ _

/-- Witness for C6: concrete run output plus a concrete first insertion. -/
theorem claim_C6_base_present_witness :
    (compSaintX ∈ reconcile oracleFail ["a", "b"] cdAB ∧
      getAssoc ([] : List (String × FeastComparison)) ("Saint X") = none) ∧
    (∃ b e, compSaintX.baseCalendar = some b ∧
      getAssoc compSaintX.calendars b = some e ∧ e.present = true ∧
      getFeastStatus compSaintX b = ("present")) ∧
    getAssoc (addFeastToComparison [] ("Saint X") ("a")
        (presentEntry ("Saint X") ("Feast") ("white"))) ("Saint X") =
      some ⟨("Saint X"), [(("a"), presentEntry ("Saint X") ("Feast") ("white"))],
        some ("a")⟩ :=
  ⟨⟨by decide, by decide⟩,
    claim_C6_base_present.1 oracleFail ["a", "b"] cdAB compSaintX (by decide),
    claim_C6_base_present.2.1 [] ("Saint X") ("a")
      (presentEntry ("Saint X") ("Feast") ("white")) (by decide)⟩

/-- Counterexample to claim C7: an observance with a non-empty description
but an empty rank, and one with a whitespace-only description, are both
accepted by the comparison filtering step — each still creates a
CanonicalFeast. -/
theorem claim_C7_cex :
    (reconcile oracleFail ["a"]
        [⟨("a"), some ⟨some ⟨("Saint Peter"), (""), ("")⟩, []⟩⟩]).map
      (fun c => c.name) = [("Saint Peter")] ∧
    (reconcile oracleFail ["a"]
        [⟨("a"), some ⟨some ⟨("   "), ("Feast"), ("white")⟩, []⟩⟩]).map
      (fun c => c.name) = [("   ")] ∧
    trimList ("   ").data = [] ∧ trimList ("").data = [] := by
  decide

/-- Claim C7 as amended: the empty-or-whitespace rejection of description
and rank is applied by the novena-worthiness filter `isNovenaWorthy`; the
comparison filtering step of `generateFeastComparisons` only skips an
observance whose description is the empty string (JS falsiness), checking
neither whitespace-only descriptions nor ranks. -/
theorem claim_C7_amended :
    (∀ title rank dateStr, trimList title.data = [] ∨ trimList rank.data = [] →
        isNovenaWorthy title rank dateStr = false) ∧
    (∀ (m : List (String × FeastComparison)) (cal : String) (o : Observance),
        o.desc = ("") → considerObservance m cal o = m) := by
  constructor
  · intro title rank dateStr h
    unfold isNovenaWorthy
    split
    · rfl
    · split
      · rfl
      · split
        · rfl
        · rename_i hcond
          exfalso
          apply hcond
          rcases h with h | h
          · simp [h]
          · simp [h]
  · intro m cal o ho
    unfold considerObservance
    rw [if_neg]
    intro hcontra
    exact hcontra.1 ho

/-- Witness for the amended C7 at concrete whitespace/empty inputs. -/
theorem claim_C7_amended_witness :
    (trimList ("   ").data = [] ∨ trimList ("Feast").data = []) ∧
    isNovenaWorthy ("   ") ("Feast") ("2024-03-04") = false ∧
    (⟨(""), ("Feast"), ("white")⟩ : Observance).desc = ("") ∧
    considerObservance [] ("a") ⟨(""), ("Feast"), ("white")⟩ = [] :=
  ⟨Or.inl (by decide),
    claim_C7_amended.1 ("   ") ("Feast") ("2024-03-04") (Or.inl (by decide)),
    rfl,
    claim_C7_amended.2 [] ("a") ⟨(""), ("Feast"), ("white")⟩ rfl⟩

/-- Claim C8: a description matching a Marian-reference pattern at the
start of its trimmed text but without any Saturday/memorial qualifier
classifies as feria = false; with a Saturday/memorial qualifier it
classifies as feria = true. -/
theorem claim_C8_marian_saturday (dNo dYes : String)
    (hm1 : matchesBvm (normBody dNo) = true)
    (hs1 : satQualifier (normBody dNo) = false)
    (hm2 : matchesBvm (normBody dYes) = true)
    (hs2 : satQualifier (normBody dYes) = true) :
    isFeria dNo = false ∧ isFeria dYes = true := by
  constructor
  · have hf := matchesBvm_not_matchesFeria hm1
    simp [isFeria, hf, hm1, hs1]
  · cases hf : matchesFeria (normBody dYes) with
    | true => simp [isFeria, hf]
    | false => simp [isFeria, hf, hm2, hs2]

/-- Witness for C8 at the claim's own examples. -/
theorem claim_C8_marian_saturday_witness :
    (matchesBvm (normBody ("Our Lady of Sorrows")) = true ∧
      satQualifier (normBody ("Our Lady of Sorrows")) = false ∧
      matchesBvm (normBody ("Our Lady of Sorrows on Saturday")) = true ∧
      satQualifier (normBody ("Our Lady of Sorrows on Saturday")) = true) ∧
    (isFeria ("Our Lady of Sorrows") = false ∧
      isFeria ("Our Lady of Sorrows on Saturday") = true) :=
  ⟨⟨by decide, by decide, by decide, by decide⟩,
    claim_C8_marian_saturday ("Our Lady of Sorrows")
      ("Our Lady of Sorrows on Saturday")
      (by decide) (by decide) (by decide) (by decide)⟩

/-- Claim C9: when two distinct calendars both directly report an
observance with the same (non-empty, non-feria) description, the run
produces exactly one comparison for it with both calendars present, and
the search loop runs over no calendar at all — no search query is issued
for that feast. -/
theorem claim_C9_shared_feast (o : SearchOracle) (A B d r1 c1 r2 c2 : String)
    (hAB : A ≠ B) (hd : d ≠ ("")) (hf : isFeria d = false) :
    reconcile o [A, B]
        [⟨A, some ⟨some ⟨d, r1, c1⟩, []⟩⟩, ⟨B, some ⟨some ⟨d, r2, c2⟩, []⟩⟩] =
      [⟨d, [(A, presentEntry d r1 c1), (B, presentEntry d r2 c2)], some A⟩] ∧
    calendarsWithoutFeast [A, B]
        ⟨d, [(A, presentEntry d r1 c1), (B, presentEntry d r2 c2)], some A⟩ = [] := by
  have h2 : considerObservance [] A ⟨d, r1, c1⟩ =
      addFeastToComparison [] d A (presentEntry d r1 c1) := by
    unfold considerObservance
    rw [if_pos]
    exact ⟨hd, hf⟩
  have h3 : addFeastToComparison [] d A (presentEntry d r1 c1) =
      [(d, ⟨d, [(A, presentEntry d r1 c1)], some A⟩)] := by
    rw [@addFeastToComparison_of_none [] d A (presentEntry d r1 c1) rfl]
    rfl
  have h5 : considerObservance [(d, ⟨d, [(A, presentEntry d r1 c1)], some A⟩)]
        B ⟨d, r2, c2⟩ =
      addFeastToComparison [(d, ⟨d, [(A, presentEntry d r1 c1)], some A⟩)] d B
        (presentEntry d r2 c2) := by
    unfold considerObservance
    rw [if_pos]
    exact ⟨hd, hf⟩
  have hget : getAssoc [(d, (⟨d, [(A, presentEntry d r1 c1)], some A⟩ :
      FeastComparison))] d = some ⟨d, [(A, presentEntry d r1 c1)], some A⟩ := by
    simp [getAssoc]
  have h6 : addFeastToComparison
        [(d, ⟨d, [(A, presentEntry d r1 c1)], some A⟩)] d B
        (presentEntry d r2 c2) =
      [(d, ⟨d, [(A, presentEntry d r1 c1), (B, presentEntry d r2 c2)], some A⟩)] := by
    rw [addFeastToComparison_of_some _ _ hget]
    simp [setAssoc, hAB]
  have hg : groupFeasts
        [⟨A, some ⟨some ⟨d, r1, c1⟩, []⟩⟩, ⟨B, some ⟨some ⟨d, r2, c2⟩, []⟩⟩] =
      [(d, ⟨d, [(A, presentEntry d r1 c1), (B, presentEntry d r2 c2)], some A⟩)] := by
    show addCalendarFeasts (addCalendarFeasts [] ⟨A, some ⟨some ⟨d, r1, c1⟩, []⟩⟩)
      ⟨B, some ⟨some ⟨d, r2, c2⟩, []⟩⟩ = _
    have ha : addCalendarFeasts [] ⟨A, some ⟨some ⟨d, r1, c1⟩, []⟩⟩ =
        considerObservance [] A ⟨d, r1, c1⟩ := rfl
    rw [ha, h2, h3]
    show considerObservance [(d, ⟨d, [(A, presentEntry d r1 c1)], some A⟩)]
      B ⟨d, r2, c2⟩ = _
    rw [h5, h6]
  have hw : calendarsWithoutFeast [A, B]
      ⟨d, [(A, presentEntry d r1 c1), (B, presentEntry d r2 c2)], some A⟩ = [] := by
    unfold calendarsWithoutFeast
    simp [getAssoc, hAB, presentEntry]
  refine ⟨?_, hw⟩
  unfold reconcile
  rw [hg]
  show sortByName [findFeastInOtherCalendars o [A, B]
    ⟨d, [(A, presentEntry d r1 c1), (B, presentEntry d r2 c2)], some A⟩] = _
  unfold findFeastInOtherCalendars
  rw [hw]
  simp [sortByName, List.insertionSort]

/-- Witness for C9 at two concrete calendars sharing `Saint X`. -/
theorem claim_C9_shared_feast_witness :
    (("a" : String) ≠ ("b") ∧ ("Saint X" : String) ≠ ("") ∧
      isFeria ("Saint X") = false) ∧
    (reconcile oracleFail [("a"), ("b")]
        [⟨("a"), some ⟨some ⟨("Saint X"), ("Feast"), ("white")⟩, []⟩⟩,
          ⟨("b"), some ⟨some ⟨("Saint X"), ("Memorial"), ("red")⟩, []⟩⟩] =
      [⟨("Saint X"),
        [(("a"), presentEntry ("Saint X") ("Feast") ("white")),
          (("b"), presentEntry ("Saint X") ("Memorial") ("red"))], some ("a")⟩] ∧
      calendarsWithoutFeast [("a"), ("b")]
        ⟨("Saint X"),
          [(("a"), presentEntry ("Saint X") ("Feast") ("white")),
            (("b"), presentEntry ("Saint X") ("Memorial") ("red"))],
          some ("a")⟩ = []) :=
  ⟨⟨by decide, by decide, by decide⟩,
    claim_C9_shared_feast oracleFail ("a") ("b") ("Saint X") ("Feast") ("white")
      ("Memorial") ("red") (by decide) (by decide) (by decide)⟩

/-- Claim C10: in every run output, the per-calendar display status is
never "rank-changed" and never "found-elsewhere"; every non-present entry
classifies as "transferred", because `getFeastStatus` tests `transferred`
before `rankChanged` and `transferred` is true on every search-produced
entry. -/
theorem claim_C10_status_transferred (o : SearchOracle) (sel : List String)
    (cd : List CalendarDayData) (comp : FeastComparison)
    (h : comp ∈ reconcile o sel cd) (cal : String) :
    getFeastStatus comp cal ≠ ("rank-changed") ∧
    getFeastStatus comp cal ≠ ("found-elsewhere") ∧
    ∀ e, getAssoc comp.calendars cal = some e → e.present = false →
      getFeastStatus comp cal = ("transferred") := by
  rcases hg : getAssoc comp.calendars cal with _ | e
  · refine ⟨?_, ?_, ?_⟩
    · simp [getFeastStatus, hg]
    · simp [getFeastStatus, hg]
    · intro e he
      exact absurd he (by simp)
  · rcases (run_inv h).2 cal e hg with hp | ⟨hp, htr, _⟩
    · refine ⟨?_, ?_, ?_⟩
      · simp [getFeastStatus, hg, hp]
      · simp [getFeastStatus, hg, hp]
      · intro e2 he2 hp2
        have he3 : e = e2 := by simpa using he2
        rw [← he3] at hp2
        rw [hp] at hp2
        exact absurd hp2 (by decide)
    · have hstat : getFeastStatus comp cal = ("transferred") := by
        simp [getFeastStatus, hg, hp, htr]
      refine ⟨?_, ?_, ?_⟩
      · rw [hstat]; decide
      · rw [hstat]; decide
      · intro e2 he2 hp2
        exact hstat

/-- Witness for C10 at the concrete high-scoring run. -/
theorem claim_C10_status_transferred_witness :
    (compFoundAB ∈ reconcile oracleHigh ["a", "b"] cdAB ∧
      getAssoc compFoundAB.calendars ("b") = some entryFoundB ∧
      entryFoundB.present = false) ∧
    (getFeastStatus compFoundAB ("b") ≠ ("rank-changed") ∧
      getFeastStatus compFoundAB ("b") ≠ ("found-elsewhere") ∧
      getFeastStatus compFoundAB ("b") = ("transferred")) :=
  ⟨⟨by decide, by decide, by decide⟩,
    ⟨(claim_C10_status_transferred oracleHigh ["a", "b"] cdAB compFoundAB
        (by decide) ("b")).1,
      (claim_C10_status_transferred oracleHigh ["a", "b"] cdAB compFoundAB
        (by decide) ("b")).2.1,
      (claim_C10_status_transferred oracleHigh ["a", "b"] cdAB compFoundAB
        (by decide) ("b")).2.2 entryFoundB (by decide) (by decide)⟩⟩

end Liturgy
